import Mathlib

/-!
Verification of the nyir-domar scraping pipeline (src/get_new_verdicts.py and
src/csv_to_json.py) against its natural-language specification.

The shallow embedding below models:
  * a Record (one CSV row) as a structure of five string fields, in the column
    order of the `cols` list of `main`;
  * Python `str.strip()` as `strTrim` (drop whitespace at both ends);
  * `pandas.drop_duplicates(subset=key, keep="first")` as `dedupeBy`, a
    first-occurrence-wins deduplication driven by a set of already seen keys;
  * the merge step of `main` (lines 127-135) as `merge`;
  * the lookup-building step of `main` (lines 143-161) as `pipelineMapping`
    and the standalone converter `csv_to_json.py` as `csvMapping`, with JSON
    objects modelled as association lists of field name/value pairs;
  * the link-discovery functions (lines 64-91) as functions of the href list
    produced by the external HTML parser;
  * the network layer as an oracle `Fetch : String → Option String`
    (`none` models a raised requests exception), so that the per-record
    error-absorption behaviour of `scrape_supreme` / `appeals_case_number`
    becomes explicit.

All definitions are structural and executable, so concrete instances evaluate
by `decide` / `rfl`.
-/

namespace Nyir

/-- One row of the persisted table: the five string columns of `cols` in
`main` (src/get_new_verdicts.py lines 97-103). -/
structure Record where
  supreme_case_number : String
  supreme_case_link : String
  appeals_case_number : String
  appeals_case_link : String
  source_type : String
deriving DecidableEq, Repr

/-- Model of Python `str.strip()` / pandas `.str.strip()`: remove whitespace
from both ends of the string. -/
def strTrim (s : String) : String :=
  String.mk (((s.toList.dropWhile Char.isWhitespace).reverse.dropWhile Char.isWhitespace).reverse)

/-- Model of Python `str.startswith`. -/
def strStartsWith (s p : String) : Bool :=
  p.toList.isPrefixOf s.toList

/-- Model of Python `str.endswith`. -/
def strEndsWith (s p : String) : Bool :=
  p.toList.isSuffixOf s.toList

/-- Model of Python `str.lower()` (ASCII case folding). -/
def strToLower (s : String) : String :=
  String.mk (s.toList.map Char.toLower)

/-- Keep-first deduplication by a key, carrying the set of keys already seen:
the element-at-a-time semantics of `pandas.DataFrame.drop_duplicates(subset=k,
keep="first")`. -/
def dedupeByAux {α κ : Type} [DecidableEq κ] (k : α → κ) (seen : List κ) :
    List α → List α
  | [] => []
  | x :: xs =>
    if k x ∈ seen then dedupeByAux k seen xs
    else x :: dedupeByAux k (k x :: seen) xs

/-- `drop_duplicates(subset=k, keep="first")`: keep the first occurrence of
each key, in order. -/
def dedupeBy {α κ : Type} [DecidableEq κ] (k : α → κ) (l : List α) : List α :=
  dedupeByAux k [] l

/-- The dedupe key of the merge step: the raw (untrimmed) supreme case number
(`subset="supreme_case_number"`, line 134). -/
def supKey (r : Record) : String := r.supreme_case_number

/-- Line 129: `df_new[df_new["appeals_case_number"].str.strip().astype(bool)]`,
keeping exactly the freshly scraped records whose appeals case number is
non-empty after trimming. -/
def filterNew (new : List Record) : List Record :=
  new.filter (fun r => !(strTrim r.appeals_case_number == ""))

/-- Lines 131-135: concatenate the prior persisted rows with the filtered new
rows and drop duplicate supreme case numbers, keeping the first occurrence. -/
def merge (prior new : List Record) : List Record :=
  dedupeBy supKey (prior ++ filterNew new)

section DedupeLemmas

variable {α κ : Type} [DecidableEq κ] {k : α → κ}

theorem mem_of_mem_dedupeByAux {x : α} {seen : List κ} {l : List α}
    (h : x ∈ dedupeByAux k seen l) : x ∈ l := by
  induction l generalizing seen with
  | nil => simp [dedupeByAux] at h
  | cons y ys ih =>
    simp only [dedupeByAux] at h
    by_cases hy : k y ∈ seen
    · rw [if_pos hy] at h
      exact List.mem_cons_of_mem _ (ih h)
    · rw [if_neg hy] at h
      rcases List.mem_cons.mp h with h | h
      · exact h ▸ List.mem_cons_self _ _
      · exact List.mem_cons_of_mem _ (ih h)

theorem key_notin_seen_of_mem_dedupeByAux {x : α} {seen : List κ} {l : List α}
    (h : x ∈ dedupeByAux k seen l) : k x ∉ seen := by
  induction l generalizing seen with
  | nil => simp [dedupeByAux] at h
  | cons y ys ih =>
    simp only [dedupeByAux] at h
    by_cases hy : k y ∈ seen
    · rw [if_pos hy] at h
      exact ih h
    · rw [if_neg hy] at h
      rcases List.mem_cons.mp h with heq | h
      · subst heq; exact hy
      · intro hx
        exact (ih h) (List.mem_cons_of_mem _ hx)

theorem key_covered {y : α} {seen : List κ} {l : List α}
    (hy : y ∈ l) (hs : k y ∉ seen) :
    ∃ x, x ∈ dedupeByAux k seen l ∧ k x = k y := by
  induction l generalizing seen with
  | nil => cases hy
  | cons z zs ih =>
    simp only [dedupeByAux]
    by_cases hz : k z ∈ seen
    · rw [if_pos hz]
      rcases List.mem_cons.mp hy with heq | hy'
      · exact absurd hz (heq ▸ hs)
      · exact ih hy' hs
    · rw [if_neg hz]
      rcases List.mem_cons.mp hy with heq | hy'
      · exact ⟨z, List.mem_cons_self _ _, (congrArg k heq).symm⟩
      · by_cases hk : k y = k z
        · exact ⟨z, List.mem_cons_self _ _, hk.symm⟩
        · have hnot : k y ∉ k z :: seen := by
            simp only [List.mem_cons]
            rintro (h | h)
            · exact hk h
            · exact hs h
          obtain ⟨x, hx, hkx⟩ := ih hy' hnot
          exact ⟨x, List.mem_cons_of_mem _ hx, hkx⟩

theorem dedupeByAux_congr_seen {s₁ s₂ : List κ}
    (hs : ∀ b, b ∈ s₁ ↔ b ∈ s₂) (l : List α) :
    dedupeByAux k s₁ l = dedupeByAux k s₂ l := by
  induction l generalizing s₁ s₂ with
  | nil => rfl
  | cons x xs ih =>
    simp only [dedupeByAux]
    by_cases h : k x ∈ s₁
    · rw [if_pos h, if_pos ((hs _).mp h), ih hs]
    · rw [if_neg h, if_neg (fun h2 => h ((hs _).mpr h2))]
      have hcons : ∀ b, b ∈ k x :: s₁ ↔ b ∈ k x :: s₂ := by
        intro b
        simp only [List.mem_cons, hs b]
      rw [ih hcons]

theorem dedupeByAux_append (seen : List κ) (xs ys : List α) :
    dedupeByAux k seen (xs ++ ys) =
      dedupeByAux k seen xs ++
        dedupeByAux k (seen ++ (dedupeByAux k seen xs).map k) ys := by
  induction xs generalizing seen with
  | nil => simp [dedupeByAux]
  | cons x xs ih =>
    simp only [List.cons_append, dedupeByAux, List.append_eq]
    by_cases hx : k x ∈ seen
    · rw [if_pos hx, if_pos hx, ih]
    · rw [if_neg hx, if_neg hx]
      rw [ih]
      have hmem : ∀ b, b ∈ (k x :: seen) ++ (dedupeByAux k (k x :: seen) xs).map k ↔
          b ∈ seen ++ (x :: dedupeByAux k (k x :: seen) xs).map k := by
        intro b
        simp only [List.map_cons, List.mem_append, List.mem_cons]
        tauto
      rw [dedupeByAux_congr_seen hmem]
      simp [List.cons_append]

theorem dedupeByAux_eq_nil {seen : List κ} {l : List α}
    (h : ∀ y ∈ l, k y ∈ seen) : dedupeByAux k seen l = [] := by
  induction l generalizing seen with
  | nil => rfl
  | cons x xs ih =>
    simp only [dedupeByAux, if_pos (h x (List.mem_cons_self _ _))]
    exact ih (fun y hy => h y (List.mem_cons_of_mem _ hy))

theorem dedupeByAux_idem (seen : List κ) (l : List α) :
    dedupeByAux k seen (dedupeByAux k seen l) = dedupeByAux k seen l := by
  induction l generalizing seen with
  | nil => rfl
  | cons x xs ih =>
    simp only [dedupeByAux]
    by_cases hx : k x ∈ seen
    · rw [if_pos hx]
      exact ih seen
    · rw [if_neg hx]
      simp only [dedupeByAux, if_neg hx]
      rw [ih]

theorem nodup_map_dedupeByAux (seen : List κ) (l : List α) :
    ((dedupeByAux k seen l).map k).Nodup := by
  induction l generalizing seen with
  | nil => simp [dedupeByAux]
  | cons x xs ih =>
    simp only [dedupeByAux]
    by_cases hx : k x ∈ seen
    · rw [if_pos hx]
      exact ih seen
    · rw [if_neg hx]
      simp only [List.map_cons, List.nodup_cons]
      constructor
      · intro hmem
        obtain ⟨y, hy, hky⟩ := List.mem_map.mp hmem
        have := key_notin_seen_of_mem_dedupeByAux hy
        exact this (hky ▸ List.mem_cons_self _ _)
      · exact ih (k x :: seen)

theorem filter_dedupeByAux (a : κ) (seen : List κ) (l : List α) :
    (dedupeByAux k seen l).filter (fun x => k x == a) =
      if a ∈ seen then [] else (l.filter (fun x => k x == a)).take 1 := by
  induction l generalizing seen with
  | nil => simp [dedupeByAux]
  | cons x xs ih =>
    simp only [dedupeByAux]
    by_cases hx : k x ∈ seen
    · rw [if_pos hx, ih]
      by_cases ha : a ∈ seen
      · simp [ha]
      · have hne : (k x == a) = false := by
          apply beq_eq_false_iff_ne.mpr
          intro heq
          exact ha (heq ▸ hx)
        rw [if_neg ha, if_neg ha, List.filter_cons_of_neg]
        simp [hne]
    · rw [if_neg hx]
      by_cases hxa : k x = a
      · have hbeq : (k x == a) = true := beq_iff_eq.mpr hxa
        rw [List.filter_cons_of_pos (by simp [hbeq]), ih]
        have hmem : a ∈ k x :: seen := by
          rw [← hxa]; exact List.mem_cons_self _ _
        rw [if_pos hmem]
        have ha : a ∉ seen := fun h => hx (hxa ▸ h)
        rw [if_neg ha, List.filter_cons_of_pos (by simp [hbeq])]
        simp
      · have hbeq : (k x == a) = false := beq_eq_false_iff_ne.mpr hxa
        rw [List.filter_cons_of_neg (by simp [hbeq]), ih]
        have hseen : (a ∈ k x :: seen) ↔ (a ∈ seen) := by
          simp only [List.mem_cons]
          constructor
          · rintro (h | h)
            · exact absurd h.symm hxa
            · exact h
          · exact Or.inr
        by_cases ha : a ∈ seen
        · rw [if_pos (hseen.mpr ha), if_pos ha]
        · rw [if_neg (fun h => ha (hseen.mp h)), if_neg ha,
            List.filter_cons_of_neg (by simp [hbeq])]

end DedupeLemmas

/-- The records a run actually adds: the filtered new records deduplicated
with every supreme case number of the (deduplicated) prior set already marked
as seen. -/
def addedNew (prior new : List Record) : List Record :=
  dedupeByAux supKey ((dedupeBy supKey prior).map supKey) (filterNew new)

theorem merge_decomp (prior new : List Record) :
    merge prior new = dedupeBy supKey prior ++ addedNew prior new := by
  unfold merge addedNew dedupeBy
  rw [dedupeByAux_append, List.nil_append]

theorem mem_merge_cases {prior new : List Record} {r : Record}
    (h : r ∈ merge prior new) : r ∈ prior ∨ r ∈ filterNew new := by
  have := mem_of_mem_dedupeByAux h
  exact List.mem_append.mp this

theorem mem_filterNew {new : List Record} {r : Record} :
    r ∈ filterNew new ↔ r ∈ new ∧ strTrim r.appeals_case_number ≠ "" := by
  unfold filterNew
  rw [List.mem_filter]
  simp

theorem addedNew_keys_fresh {prior new : List Record} {r : Record}
    (hr : r ∈ addedNew prior new) : ∀ p ∈ prior, supKey r ≠ supKey p := by
  intro p hp heq
  have hnot : supKey r ∉ (dedupeBy supKey prior).map supKey :=
    key_notin_seen_of_mem_dedupeByAux hr
  have hcov : ∃ x, x ∈ dedupeByAux supKey [] prior ∧ supKey x = supKey p :=
    key_covered hp (List.not_mem_nil _)
  obtain ⟨x, hx, hkx⟩ := hcov
  exact hnot (List.mem_map.mpr ⟨x, hx, hkx.trans heq.symm⟩)

theorem merge_idem (prior new : List Record) :
    merge (merge prior new) new = merge prior new := by
  unfold merge dedupeBy
  rw [dedupeByAux_append, dedupeByAux_idem, List.nil_append]
  have hnil :
      dedupeByAux supKey
        ((dedupeByAux supKey [] (prior ++ filterNew new)).map supKey)
        (filterNew new) = [] := by
    apply dedupeByAux_eq_nil
    intro y hy
    have hy' : y ∈ prior ++ filterNew new := List.mem_append_right _ hy
    obtain ⟨x, hx, hkx⟩ := key_covered (k := supKey) hy' (List.not_mem_nil _)
    exact List.mem_map.mpr ⟨x, hx, hkx⟩
  rw [hnil, List.append_nil]

/-- A JSON object of the lookup file, modelled as an association list of
field name/value pairs in insertion order. -/
abbrev Obj := List (String × String)

/-- Record with every string field trimmed: lines 146-147
(`df[col] = df[col].str.strip()` over all string columns). -/
def stripRecord (r : Record) : Record :=
  { supreme_case_number := strTrim r.supreme_case_number
    supreme_case_link := strTrim r.supreme_case_link
    appeals_case_number := strTrim r.appeals_case_number
    appeals_case_link := strTrim r.appeals_case_link
    source_type := strTrim r.source_type }

/-- The dict stored per record by the inline builder (lines 153-158):
`group.drop(columns="appeals_case_number").to_dict(orient="records")`, so the
remaining four columns in column order. -/
def entryObj (r : Record) : Obj :=
  [("supreme_case_number", r.supreme_case_number),
   ("supreme_case_link", r.supreme_case_link),
   ("appeals_case_link", r.appeals_case_link),
   ("source_type", r.source_type)]

/-- The dict stored per row by csv_to_json.py (lines 10-16): all five fields,
each stripped, including `appeals_case_number`. -/
def csvObj (r : Record) : Obj :=
  [("appeals_case_number", strTrim r.appeals_case_number),
   ("supreme_case_number", strTrim r.supreme_case_number),
   ("supreme_case_link", strTrim r.supreme_case_link),
   ("appeals_case_link", strTrim r.appeals_case_link),
   ("source_type", strTrim r.source_type)]

/-- A value of the lookup mapping: a bare object for a group of size 1,
otherwise a list of objects. -/
inductive GroupVal where
  | single (o : Obj)
  | multi (os : List Obj)
deriving DecidableEq, Repr

/-- The objects held by a mapping value. -/
def GroupVal.toList : GroupVal → List Obj
  | .single o => [o]
  | .multi os => os

/-- The size-1 collapse shared by both builders: a one-element group becomes
the bare object, anything else the list. -/
def collapse : List Obj → GroupVal
  | [o] => .single o
  | os => .multi os

/-- The group of records carrying appeals case number `a`, in input order
(pandas `groupby` preserves the within-group row order). -/
def groupFor (rs : List Record) (a : String) : List Record :=
  rs.filter (fun r => r.appeals_case_number == a)

/-- The distinct appeals case numbers of `rs`, first occurrence first.
(pandas `groupby` additionally sorts the keys and drops null keys; key order
is irrelevant to the claims below, and a null key only arises from a record
persisted with an empty appeals number, which the merge filter excludes.) -/
def mappingKeys (rs : List Record) : List String :=
  dedupeBy (fun s => s) (rs.map (fun r => r.appeals_case_number))

/-- The grouped lookup mapping over a record list. -/
def buildMapping (rs : List Record) : List (String × GroupVal) :=
  (mappingKeys rs).map (fun a => (a, collapse ((groupFor rs a).map entryObj)))

/-- Lines 143-161 of get_new_verdicts.py: strip every string field of the
merged table, then group by `appeals_case_number`, dropping that column from
the stored dicts and collapsing size-1 groups. -/
def pipelineMapping (merged : List Record) : List (String × GroupVal) :=
  buildMapping (merged.map stripRecord)

/-- csv_to_json.py lines 7-16: group rows by the stripped appeals case
number. -/
def csvGroupFor (rows : List Record) (a : String) : List Record :=
  rows.filter (fun r => strTrim r.appeals_case_number == a)

/-- csv_to_json.py lines 7-19: the standalone converter's mapping; the stored
dicts keep all five fields. -/
def csvMapping (rows : List Record) : List (String × GroupVal) :=
  (dedupeBy (fun s => s) (rows.map (fun r => strTrim r.appeals_case_number))).map
    (fun a => (a, collapse ((csvGroupFor rows a).map csvObj)))

/-- Flattening a lookup mapping back to the flat sequence of its stored
objects. -/
def flattenMapping : List (String × GroupVal) → List Obj
  | [] => []
  | p :: m => p.2.toList ++ flattenMapping m

theorem collapse_toList (os : List Obj) : (collapse os).toList = os := by
  match os with
  | [] => rfl
  | [o] => rfl
  | o1 :: o2 :: rest => rfl

theorem collapse_of_gt_one {os : List Obj} (h : 1 < os.length) :
    collapse os = .multi os := by
  match os with
  | [] => simp at h
  | [o] => simp at h
  | o1 :: o2 :: rest => rfl

theorem mem_mappingKeys {rs : List Record} {a : String} :
    a ∈ mappingKeys rs ↔ ∃ r ∈ rs, r.appeals_case_number = a := by
  constructor
  · intro h
    have := mem_of_mem_dedupeByAux h
    obtain ⟨r, hr, hra⟩ := List.mem_map.mp this
    exact ⟨r, hr, hra⟩
  · rintro ⟨r, hr, rfl⟩
    have hm : r.appeals_case_number ∈ rs.map (fun r => r.appeals_case_number) :=
      List.mem_map.mpr ⟨r, hr, rfl⟩
    obtain ⟨x, hx, hkx⟩ :=
      key_covered (k := fun s : String => s) hm (List.not_mem_nil _)
    exact hkx ▸ hx

theorem mem_buildMapping {rs : List Record} {a : String} {v : GroupVal} :
    (a, v) ∈ buildMapping rs ↔
      a ∈ mappingKeys rs ∧ v = collapse ((groupFor rs a).map entryObj) := by
  unfold buildMapping
  rw [List.mem_map]
  constructor
  · rintro ⟨b, hb, heq⟩
    obtain ⟨h1, h2⟩ := Prod.mk.injEq .. ▸ heq
    exact ⟨h1 ▸ hb, h2.symm ▸ (h1 ▸ rfl)⟩
  · rintro ⟨ha, rfl⟩
    exact ⟨a, ha, rfl⟩

theorem mem_flattenMapping {m : List (String × GroupVal)} {o : Obj} :
    o ∈ flattenMapping m ↔ ∃ p ∈ m, o ∈ p.2.toList := by
  induction m with
  | nil => simp [flattenMapping]
  | cons p m ih =>
    simp only [flattenMapping, List.mem_append, ih, List.mem_cons]
    constructor
    · rintro (h | ⟨q, hq, ho⟩)
      · exact ⟨p, Or.inl rfl, h⟩
      · exact ⟨q, Or.inr hq, ho⟩
    · rintro ⟨q, hq | hq, ho⟩
      · exact Or.inl (hq ▸ ho)
      · exact Or.inr ⟨q, hq, ho⟩

theorem mem_flatten_buildMapping {rs : List Record} {o : Obj} :
    o ∈ flattenMapping (buildMapping rs) ↔ o ∈ rs.map entryObj := by
  rw [mem_flattenMapping]
  constructor
  · rintro ⟨⟨a, v⟩, hav, ho⟩
    obtain ⟨_, rfl⟩ := mem_buildMapping.mp hav
    rw [collapse_toList] at ho
    obtain ⟨r, hr, rfl⟩ := List.mem_map.mp ho
    exact List.mem_map.mpr ⟨r, (List.mem_filter.mp hr).1, rfl⟩
  · intro ho
    obtain ⟨r, hr, rfl⟩ := List.mem_map.mp ho
    refine ⟨(r.appeals_case_number,
      collapse ((groupFor rs r.appeals_case_number).map entryObj)), ?_, ?_⟩
    · exact mem_buildMapping.mpr ⟨mem_mappingKeys.mpr ⟨r, hr, rfl⟩, rfl⟩
    · rw [collapse_toList]
      exact List.mem_map.mpr
        ⟨r, List.mem_filter.mpr ⟨hr, beq_self_eq_true _⟩, rfl⟩

/-- The base URL of both listing pages (lines 65, 80). -/
def siteBase : String := "https://www.haestirettur.is"

/-- Model of `urljoin(base, href)` as used here: every href passed in starts
with "/", and the base is a bare scheme-plus-host URL, so the join is
concatenation. -/
def resolveHref (href : String) : String := siteBase ++ href

/-- Model of Python `sorted` on strings (lexicographic on code points). -/
def sortStrings (l : List String) : List String :=
  List.insertionSort (· ≤ ·) l

/-- Lines 64-76: collect the hrefs of the verdict listing page that start
with "/domar/_domur/", resolve them against the base, and return the sorted
set. The external HTML parser is modelled by the list of anchor href values
in document order. -/
def get_verdict_links (hrefs : List String) : List String :=
  sortStrings (dedupeBy (fun s => s)
    ((hrefs.filter (fun h => strStartsWith h "/domar/_domur/")).map resolveHref))

/-- Lines 79-91: same for the decision listing page, except that the bare
root "/akvardanir/" is explicitly excluded. -/
def get_decision_links (hrefs : List String) : List String :=
  sortStrings (dedupeBy (fun s => s)
    ((hrefs.filter
      (fun h => strStartsWith h "/akvardanir/" && !(h == "/akvardanir/"))).map resolveHref))

theorem mem_dedupeBy_id {l : List String} {a : String} :
    a ∈ dedupeBy (fun s => s) l ↔ a ∈ l := by
  constructor
  · exact mem_of_mem_dedupeByAux
  · intro h
    obtain ⟨x, hx, hkx⟩ :=
      key_covered (k := fun s : String => s) h (List.not_mem_nil _)
    exact hkx ▸ hx

theorem nodup_dedupeBy_id (l : List String) :
    (dedupeBy (fun s => s) l).Nodup := by
  have h := nodup_map_dedupeByAux (k := fun s : String => s) [] l
  rwa [List.map_id'] at h

theorem sortStrings_sorted (l : List String) :
    List.Sorted (· ≤ ·) (sortStrings l) :=
  List.sorted_insertionSort _ l

theorem sortStrings_perm (l : List String) : List.Perm (sortStrings l) l :=
  List.perm_insertionSort _ l

theorem sortStrings_dedupe_ext {l l' : List String}
    (h : ∀ u, u ∈ l ↔ u ∈ l') :
    sortStrings (dedupeBy (fun s => s) l) = sortStrings (dedupeBy (fun s => s) l') := by
  apply List.eq_of_perm_of_sorted _ (sortStrings_sorted _) (sortStrings_sorted _)
  have n1 : (sortStrings (dedupeBy (fun s => s) l)).Nodup :=
    ((sortStrings_perm _).nodup_iff).mpr (nodup_dedupeBy_id l)
  have n2 : (sortStrings (dedupeBy (fun s => s) l')).Nodup :=
    ((sortStrings_perm _).nodup_iff).mpr (nodup_dedupeBy_id l')
  rw [List.perm_ext_iff_of_nodup n1 n2]
  intro u
  rw [(sortStrings_perm _).mem_iff, (sortStrings_perm _).mem_iff,
    mem_dedupeBy_id, mem_dedupeBy_id, h u]

theorem mem_get_verdict_links {hrefs : List String} {u : String} :
    u ∈ get_verdict_links hrefs ↔
      ∃ h ∈ hrefs, strStartsWith h "/domar/_domur/" = true ∧ u = resolveHref h := by
  unfold get_verdict_links
  rw [(sortStrings_perm _).mem_iff, mem_dedupeBy_id, List.mem_map]
  constructor
  · rintro ⟨h, hh, rfl⟩
    obtain ⟨h1, h2⟩ := List.mem_filter.mp hh
    exact ⟨h, h1, h2, rfl⟩
  · rintro ⟨h, h1, h2, rfl⟩
    exact ⟨h, List.mem_filter.mpr ⟨h1, h2⟩, rfl⟩

theorem mem_get_decision_links {hrefs : List String} {u : String} :
    u ∈ get_decision_links hrefs ↔
      ∃ h ∈ hrefs, strStartsWith h "/akvardanir/" = true ∧ h ≠ "/akvardanir/" ∧
        u = resolveHref h := by
  unfold get_decision_links
  rw [(sortStrings_perm _).mem_iff, mem_dedupeBy_id, List.mem_map]
  constructor
  · rintro ⟨h, hh, rfl⟩
    obtain ⟨h1, h2⟩ := List.mem_filter.mp hh
    rw [Bool.and_eq_true] at h2
    refine ⟨h, h1, h2.1, ?_, rfl⟩
    have := h2.2
    simpa using this
  · rintro ⟨h, h1, h2, h3, rfl⟩
    refine ⟨h, List.mem_filter.mpr ⟨h1, ?_⟩, rfl⟩
    rw [Bool.and_eq_true]
    exact ⟨h2, by simpa using h3⟩

/-- Word characters for the regex boundary `\b` (modelled over ASCII
alphanumerics and underscore). -/
def isWordChar (c : Char) : Bool := c.isAlphanum || c == '_'

/-- True when the position after a match is a word boundary: end of input or
a non-word character. -/
def boundaryAfter : List Char → Bool
  | [] => true
  | c :: _ => !isWordChar c

/-- Try the supreme-court pattern `\b(\d{4}-\d+)\b` (SUPREME_RE, line 13) at
the head of `cs`; the caller guarantees the before-boundary. -/
def supremeMatchAt (cs : List Char) : Option String :=
  let d1 := cs.takeWhile Char.isDigit
  if d1.length == 4 then
    match cs.drop 4 with
    | '-' :: rest =>
      let d2 := rest.takeWhile Char.isDigit
      if !d2.isEmpty && boundaryAfter (rest.drop d2.length) then
        some (String.mk (d1 ++ '-' :: d2))
      else none
    | _ => none
  else none

/-- Scan for the first SUPREME_RE match; `prevWord` records whether the
previous character was a word character (no `\b` boundary can start after
one, since the pattern starts with a digit). -/
def firstSupremeAux (prevWord : Bool) : List Char → Option String
  | [] => none
  | c :: rest =>
    if !prevWord then
      match supremeMatchAt (c :: rest) with
      | some s => some s
      | none => firstSupremeAux (isWordChar c) rest
    else firstSupremeAux (isWordChar c) rest

/-- Lines 45-48 of scrape_supreme: the first SUPREME_RE match in document
order, or empty. -/
def firstSupremeNo (html : String) : String :=
  (firstSupremeAux false html.toList).getD ""

/-- Try the appeals-number pattern `\b(\d+)/(20\d{2})\b` (APPEALS_NO_RE,
line 20) at the head of `cs`; on success also return the remaining input, so
that `findall` can continue after the match. -/
def appealsNoMatchAt (cs : List Char) : Option ((String × String) × List Char) :=
  let d1 := cs.takeWhile Char.isDigit
  if d1.isEmpty then none
  else
    match cs.drop d1.length with
    | '/' :: rest =>
      match rest with
      | '2' :: '0' :: a :: b :: rest2 =>
        if a.isDigit && b.isDigit && boundaryAfter rest2 then
          some ((String.mk d1, String.mk ['2', '0', a, b]), rest2)
        else none
      | _ => none
    | _ => none

/-- All APPEALS_NO_RE matches in document order (`findall`), non-overlapping;
`fuel` bounds the number of scan steps (each step consumes at least one
character, so an initial fuel of length + 1 is enough). -/
def appealsNosAux : Nat → Bool → List Char → List (String × String)
  | 0, _, _ => []
  | _ + 1, _, [] => []
  | fuel + 1, prevWord, c :: rest =>
    if !prevWord then
      match appealsNoMatchAt (c :: rest) with
      | some (p, rest2) => p :: appealsNosAux fuel true rest2
      | none => appealsNosAux fuel (isWordChar c) rest
    else appealsNosAux fuel (isWordChar c) rest

/-- `APPEALS_NO_RE.findall(page)`. -/
def appealsNos (page : String) : List (String × String) :=
  appealsNosAux (page.toList.length + 1) false page.toList

/-- Numeric value of a digit string (`int(year)`; the year group is always
four digits). -/
def digitsToNat (cs : List Char) : Nat :=
  cs.foldl (fun n c => n * 10 + (c.toNat - 48)) 0

/-- The year filter of `appeals_case_number` (line 31): `int(year) >= 2018`. -/
def yearQualifies (p : String × String) : Bool :=
  decide (2018 ≤ digitsToNat p.2.toList)

/-- The network layer: page text on success, `none` when the request raises. -/
abbrev Fetch := String → Option String

/-- Lines 23-33: fetch the appeals page and return the first `num/year` match
whose year is at least 2018; a fetch failure is absorbed (`try/except`) and
yields the empty string. -/
def appeals_case_number (fetch : Fetch) (url : String) : String :=
  match fetch url with
  | none => ""
  | some page =>
    match (appealsNos page).filter yearQualifies with
    | [] => ""
    | (num, year) :: _ => num ++ "/" ++ year

/-- The literal head of APPEALS_URL_RE (lines 17-19). -/
def appealsUrlHead : String :=
  "https://landsrettur.is/domar-og-urskurdir/domur-urskurdur/"

/-- Characters allowed by the `[^\s\x22\x27<>]+` tail of APPEALS_URL_RE. -/
def urlChar (c : Char) : Bool :=
  !(c.isWhitespace || c == '"' || c == Char.ofNat 39 || c == '<' || c == '>')

/-- Try APPEALS_URL_RE at the head of `cs`: the literal head followed by a
non-empty maximal run of allowed characters. -/
def appealsLinkAt (cs : List Char) : Option String :=
  if appealsUrlHead.toList.isPrefixOf cs then
    let run := (cs.drop appealsUrlHead.toList.length).takeWhile urlChar
    if run.isEmpty then none else some (String.mk (appealsUrlHead.toList ++ run))
  else none

/-- Scan for the first APPEALS_URL_RE match (`search`). -/
def firstAppealsAux : List Char → Option String
  | [] => none
  | c :: rest =>
    match appealsLinkAt (c :: rest) with
    | some s => some s
    | none => firstAppealsAux rest

/-- Lines 36-38: the first appeals-court URL embedded in the page, or "". -/
def first_appeals_link (html : String) : String :=
  (firstAppealsAux html.toList).getD ""

/-- The netloc of an absolute URL (model of `urlparse(...).netloc` for URLs
containing "://"): the text between "://" and the next '/', '?' or '#'. -/
def netlocAux : List Char → List Char
  | ':' :: '/' :: '/' :: rest =>
    rest.takeWhile (fun c => !(c == '/' || c == '?' || c == '#'))
  | _ :: rest => netlocAux rest
  | [] => []

def netloc (url : String) : String := String.mk (netlocAux url.toList)

/-- Lines 54-56: the host family check on the cross-reference link. -/
def isLandsrettur (link : String) : Bool :=
  let dom := strToLower (netloc link)
  dom == "landsrettur.is" || strEndsWith dom ".landsrettur.is"

/-- Lines 41-61: scrape one detail page. The initial fetch has no exception
handling, so a failed detail-page fetch is an error that propagates to the
caller; on success the record tuple is always produced, with the appeals
number resolved only for a right-domain cross-reference link. -/
def scrape_supreme (fetch : Fetch) (url : String) :
    Except Unit (String × String × String × String) :=
  match fetch url with
  | none => Except.error ()
  | some html =>
    if first_appeals_link html == "" then
      Except.ok (firstSupremeNo html, url, "", "")
    else if isLandsrettur (first_appeals_link html) then
      Except.ok (firstSupremeNo html, url,
        appeals_case_number fetch (first_appeals_link html), first_appeals_link html)
    else Except.ok (firstSupremeNo html, url, "", "")

/-! Concrete records used by witnesses and counterexamples. -/

/-- A record with an empty appeals case number (a detail page whose
cross-reference did not resolve). -/
def rNoAppeals : Record :=
  ⟨"2024-1", "https://www.haestirettur.is/domar/_domur/a1", "", "", "dóm"⟩

/-- A well-formed record. -/
def rGood : Record :=
  ⟨"2024-10", "https://www.haestirettur.is/domar/_domur/a2", "12/2020",
   "https://landsrettur.is/domar-og-urskurdir/domur-urskurdur/a", "dóm"⟩

/-- A second record sharing rGood's appeals case number. -/
def rGood2 : Record :=
  ⟨"2024-11", "https://www.haestirettur.is/domar/_domur/a3", "12/2020", "", "ákvörðun"⟩

/-- A record with an appeals case number of its own. -/
def rGood3 : Record :=
  ⟨"2024-12", "https://www.haestirettur.is/domar/_domur/a4", "8/2019", "", "dóm"⟩

/-- A record whose supreme case number and appeals case number carry stray
whitespace; its supreme key equals rGood's after trimming but not before. -/
def rUntrimmed : Record :=
  ⟨"2024-10 ", "https://www.haestirettur.is/domar/_domur/a5", " 5/2021 ", "", "dóm"⟩

/-- C1: the Merge/Dedupe Engine deduplicates prior ++ filtered-new by
`supreme_case_number` keeping the first occurrence: the merged list is exactly
the deduplicated prior list — every surviving prior record with all its field
values unchanged, unaffected by the new records — followed by the added new
records, none of which shares a `supreme_case_number` with any prior record,
so no prior record is removed or overwritten by a same-keyed new record. -/
theorem spec_claim_C1 (prior new : List Record) :
    merge prior new = dedupeBy supKey prior ++ addedNew prior new ∧
    (addedNew prior new).all
      (fun r => prior.all (fun p => !(supKey r == supKey p))) = true := by
  refine ⟨merge_decomp prior new, ?_⟩
  rw [List.all_eq_true]
  intro r hr
  rw [List.all_eq_true]
  intro p hp
  have h := addedNew_keys_fresh hr p hp
  simpa using h

/-- C2 counterexample: the merge only filters the freshly scraped side, so a
prior record with an empty `appeals_case_number` survives into the merged
output; the claim is false for arbitrary prior sequences. -/
theorem spec_claim_C2_counterexample :
    ¬ (∀ (prior new : List Record), ∀ r ∈ merge prior new,
        r.appeals_case_number ≠ "") := by
  intro h
  exact h [rNoAppeals] [] rNoAppeals (by decide) rfl

/-- C2 (amended): provided every record of the prior persisted sequence has a
non-empty `appeals_case_number` (which holds for any prior set that the
pipeline itself produced), every record of the merged output has a non-empty
`appeals_case_number`. -/
theorem spec_claim_C2 (prior new : List Record)
    (hprior : ∀ p ∈ prior, p.appeals_case_number ≠ "") :
    ∀ r ∈ merge prior new, r.appeals_case_number ≠ "" := by
  intro r hr
  rcases mem_merge_cases hr with h | h
  · exact hprior r h
  · intro heq
    exact (mem_filterNew.mp h).2 (by rw [heq]; rfl)

/-- C2 witness: the amended theorem applied to a concrete well-formed prior
set. -/
theorem spec_claim_C2_witness : rGood.appeals_case_number ≠ "" :=
  spec_claim_C2 [rGood] [] (by decide) rGood (by decide)

/-- C5: idempotence of the merge-then-group pipeline: re-running with the
first run's merged output as the prior set and the same scraped records
reproduces the same merged set and the same lookup mapping, with no duplicate
growth. -/
theorem spec_claim_C5 (prior new : List Record) :
    merge (merge prior new) new = merge prior new ∧
    pipelineMapping (merge (merge prior new) new) =
      pipelineMapping (merge prior new) := by
  refine ⟨merge_idem prior new, ?_⟩
  rw [merge_idem]

/-- C7: drop policy: a freshly scraped record whose `appeals_case_number`
trims to the empty string is dropped by the filter, and any record of the
merged set with such an identifier can only have come from the prior set —
never from the freshly scraped sequence. -/
theorem spec_claim_C7 (prior new : List Record) (r : Record) :
    (strTrim r.appeals_case_number = "" → r ∉ filterNew new) ∧
    (r ∈ merge prior new → strTrim r.appeals_case_number = "" → r ∈ prior) := by
  constructor
  · intro he hmem
    exact (mem_filterNew.mp hmem).2 he
  · intro hmem he
    rcases mem_merge_cases hmem with h | h
    · exact h
    · exact absurd he (mem_filterNew.mp h).2

/-- C7 witness: the empty-identifier record is rejected by the filter, and
its presence in a concrete merge is attributed to the prior set. -/
theorem spec_claim_C7_witness :
    rNoAppeals ∉ filterNew [rNoAppeals] ∧ rNoAppeals ∈ [rNoAppeals] :=
  ⟨(spec_claim_C7 [rNoAppeals] [rNoAppeals] rNoAppeals).1 (by decide),
   (spec_claim_C7 [rNoAppeals] [rNoAppeals] rNoAppeals).2 (by decide) (by decide)⟩

/-- C10: the dedupe keys on `supreme_case_number` even when that field is
empty: the merged set retains exactly the first record of the concatenated
prior-plus-filtered-new sequence whose supreme case number is the empty
string, and drops every later one. -/
theorem spec_claim_C10 (prior new : List Record) :
    (merge prior new).filter (fun r => supKey r == "") =
      ((prior ++ filterNew new).filter (fun r => supKey r == "")).take 1 := by
  unfold merge dedupeBy
  rw [filter_dedupeByAux]
  simp

theorem mem_csvMapping {rows : List Record} {a : String} {v : GroupVal} :
    (a, v) ∈ csvMapping rows ↔
      a ∈ dedupeBy (fun s => s) (rows.map (fun r => strTrim r.appeals_case_number)) ∧
      v = collapse ((csvGroupFor rows a).map csvObj) := by
  unfold csvMapping
  rw [List.mem_map]
  constructor
  · rintro ⟨b, hb, heq⟩
    obtain ⟨h1, h2⟩ := Prod.mk.injEq .. ▸ heq
    exact ⟨h1 ▸ hb, h2.symm ▸ (h1 ▸ rfl)⟩
  · rintro ⟨ha, rfl⟩
    exact ⟨a, ha, rfl⟩

/-- The field-name list of the objects written by the inline builder. -/
def pipelineFieldNames : List String :=
  ["supreme_case_number", "supreme_case_link", "appeals_case_link", "source_type"]

/-- The field-name list of the objects written by csv_to_json.py. -/
def csvFieldNames : List String :=
  ["appeals_case_number", "supreme_case_number", "supreme_case_link",
   "appeals_case_link", "source_type"]

/-- C3 counterexample: the standalone converter csv_to_json.py stores all
five fields — its lookup values DO contain an `appeals_case_number` field
(line 11 of csv_to_json.py), contradicting the claim for that builder. -/
theorem spec_claim_C3_counterexample :
    ¬ (∀ (rows : List Record) (a : String) (v : GroupVal) (o : Obj),
        (a, v) ∈ csvMapping rows → o ∈ v.toList →
        "appeals_case_number" ∉ o.map Prod.fst) := by
  intro h
  exact h [rGood] "12/2020" (GroupVal.single (csvObj rGood)) (csvObj rGood)
    (by decide) (by decide) (by decide)

/-- C3 (amended): every object stored by the inline pipeline builder contains
exactly the four fields `supreme_case_number`, `supreme_case_link`,
`appeals_case_link`, `source_type` and no `appeals_case_number` field, while
every object stored by the standalone CSV-to-JSON converter contains exactly
those four plus `appeals_case_number`. -/
theorem spec_claim_C3 :
    (∀ (merged : List Record) (a : String) (v : GroupVal) (o : Obj),
        (a, v) ∈ pipelineMapping merged → o ∈ v.toList →
        o.map Prod.fst = pipelineFieldNames) ∧
    (∀ (rows : List Record) (a : String) (v : GroupVal) (o : Obj),
        (a, v) ∈ csvMapping rows → o ∈ v.toList →
        o.map Prod.fst = csvFieldNames) := by
  constructor
  · intro merged a v o hav ho
    obtain ⟨_, rfl⟩ := mem_buildMapping.mp hav
    rw [collapse_toList] at ho
    obtain ⟨r, _, rfl⟩ := List.mem_map.mp ho
    rfl
  · intro rows a v o hav ho
    obtain ⟨_, rfl⟩ := mem_csvMapping.mp hav
    rw [collapse_toList] at ho
    obtain ⟨r, _, rfl⟩ := List.mem_map.mp ho
    rfl

/-- C3 witness: the amended theorem applied to concrete one-record inputs. -/
theorem spec_claim_C3_witness :
    (entryObj (stripRecord rGood)).map Prod.fst = pipelineFieldNames ∧
    (csvObj rGood2).map Prod.fst = csvFieldNames :=
  ⟨spec_claim_C3.1 [rGood] "12/2020"
      (GroupVal.single (entryObj (stripRecord rGood))) (entryObj (stripRecord rGood))
      (by decide) (by decide),
   spec_claim_C3.2 [rGood2] "12/2020"
      (GroupVal.single (csvObj rGood2)) (csvObj rGood2) (by decide) (by decide)⟩

/-- C6: grouping collapse law for the pipeline's lookup builder: a key whose
group has exactly one (stripped) record maps to a bare object; a key whose
group has N > 1 records maps to a list of exactly the group's N objects in
first-seen order; and flattening the lookup yields, as an unordered set,
exactly the objects of the merged set's records. -/
theorem spec_claim_C6 (merged : List Record) :
    (∀ (a : String) (r : Record),
        groupFor (merged.map stripRecord) a = [r] →
        (a, GroupVal.single (entryObj r)) ∈ pipelineMapping merged) ∧
    (∀ a : String, 1 < (groupFor (merged.map stripRecord) a).length →
        (a, GroupVal.multi ((groupFor (merged.map stripRecord) a).map entryObj))
            ∈ pipelineMapping merged ∧
        ((groupFor (merged.map stripRecord) a).map entryObj).length =
          (groupFor (merged.map stripRecord) a).length) ∧
    (∀ o : Obj, o ∈ flattenMapping (pipelineMapping merged) ↔
        o ∈ (merged.map stripRecord).map entryObj) := by
  refine ⟨?_, ?_, ?_⟩
  · intro a r hg
    have hr : r ∈ groupFor (merged.map stripRecord) a := by
      rw [hg]; exact List.mem_cons_self _ _
    obtain ⟨hrs, hbeq⟩ := List.mem_filter.mp hr
    apply mem_buildMapping.mpr
    refine ⟨mem_mappingKeys.mpr ⟨r, hrs, beq_iff_eq.mp hbeq⟩, ?_⟩
    rw [hg]
    rfl
  · intro a hlen
    have hne : groupFor (merged.map stripRecord) a ≠ [] := by
      intro h
      rw [h] at hlen
      simp at hlen
    obtain ⟨r, hr⟩ := List.exists_mem_of_ne_nil _ hne
    obtain ⟨hrs, hbeq⟩ := List.mem_filter.mp hr
    constructor
    · apply mem_buildMapping.mpr
      refine ⟨mem_mappingKeys.mpr ⟨r, hrs, beq_iff_eq.mp hbeq⟩, ?_⟩
      rw [collapse_of_gt_one (by simpa using hlen)]
    · exact List.length_map _ _
  · intro o
    exact mem_flatten_buildMapping

/-- C6 witness: a concrete merged set with one two-record group and one
one-record group. -/
theorem spec_claim_C6_witness :
    ("8/2019", GroupVal.single (entryObj rGood3))
        ∈ pipelineMapping [rGood, rGood2, rGood3] ∧
    ("12/2020",
      GroupVal.multi ((groupFor ([rGood, rGood2, rGood3].map stripRecord) "12/2020").map entryObj))
        ∈ pipelineMapping [rGood, rGood2, rGood3] :=
  ⟨(spec_claim_C6 [rGood, rGood2, rGood3]).1 "8/2019" rGood3 (by decide),
   ((spec_claim_C6 [rGood, rGood2, rGood3]).2.1 "12/2020" (by decide)).1⟩

/-- C8 counterexample: the dedupe key comparison is on the raw, untrimmed
`supreme_case_number` — two records whose keys differ only by whitespace both
survive — and the persisted merged set stores records verbatim, untrimmed. -/
theorem spec_claim_C8_counterexample :
    (merge [rGood] [rUntrimmed] = [rGood, rUntrimmed] ∧
      strTrim (supKey rGood) = strTrim (supKey rUntrimmed)) ∧
    ¬ (∀ (prior new : List Record) (r : Record),
        r ∈ merge prior new → stripRecord r = r) := by
  refine ⟨⟨by decide, by decide⟩, ?_⟩
  intro h
  have hx := h [] [rUntrimmed] rUntrimmed (by decide)
  exact absurd hx (by decide)

/-- C8 (amended): trimming happens at exactly two points: the new-record
filter compares the trimmed `appeals_case_number`, and the lookup builder
trims all string fields before grouping and storage. The dedupe key
comparison uses the raw `supreme_case_number`, and the persisted merged set
stores records verbatim (untrimmed). -/
theorem spec_claim_C8 :
    (∀ (new : List Record) (r : Record),
        r ∈ filterNew new ↔ r ∈ new ∧ strTrim r.appeals_case_number ≠ "") ∧
    (∀ p n : Record, supKey p ≠ supKey n → strTrim n.appeals_case_number ≠ "" →
        merge [p] [n] = [p, n]) ∧
    (∀ (prior new : List Record) (r : Record),
        r ∈ merge prior new → r ∈ prior ∨ r ∈ new) ∧
    (∀ (merged : List Record) (a : String) (v : GroupVal) (o : Obj),
        (a, v) ∈ pipelineMapping merged → o ∈ v.toList →
        ∃ r ∈ merged, o = entryObj (stripRecord r) ∧
          a = strTrim r.appeals_case_number) := by
  refine ⟨?_, ?_, ?_, ?_⟩
  · intro new r
    exact mem_filterNew
  · intro p n hpn hn
    have hf : filterNew [n] = [n] := by
      unfold filterNew
      rw [List.filter_cons_of_pos]
      · rfl
      · simp [beq_eq_false_iff_ne.mpr hn]
    unfold merge
    rw [hf]
    unfold dedupeBy
    simp only [List.cons_append, List.nil_append, dedupeByAux]
    rw [if_neg (List.not_mem_nil _), if_neg]
    simp only [List.mem_cons, List.not_mem_nil, or_false]
    exact fun h => hpn h.symm
  · intro prior new r hr
    rcases mem_merge_cases hr with h | h
    · exact Or.inl h
    · exact Or.inr (List.mem_of_mem_filter h)
  · intro merged a v o hav ho
    obtain ⟨_, rfl⟩ := mem_buildMapping.mp hav
    rw [collapse_toList] at ho
    obtain ⟨r', hr', rfl⟩ := List.mem_map.mp ho
    obtain ⟨hrs, hbeq⟩ := List.mem_filter.mp hr'
    obtain ⟨r, hr, rfl⟩ := List.mem_map.mp hrs
    exact ⟨r, hr, rfl, (beq_iff_eq.mp hbeq).symm⟩

/-- C8 witness: the amended theorem's untrimmed-dedupe part at concrete
records whose supreme keys differ only by a trailing space. -/
theorem spec_claim_C8_witness :
    merge [rGood3] [rUntrimmed] = [rGood3, rUntrimmed] :=
  spec_claim_C8.2.1 rGood3 rUntrimmed (by decide) (by decide)

/-- C4 counterexample: a detail-page fetch failure is NOT absorbed: the
initial `requests.get` of `scrape_supreme` (line 42) has no exception
handling, so the failure propagates to the caller instead of producing a
record with an empty appeals identifier. -/
theorem spec_claim_C4_counterexample :
    scrape_supreme (fun _ => none) "https://www.haestirettur.is/domar/_domur/a1" =
      Except.error () := rfl

/-- C4 (amended): only the cross-reference-page fetch failure is absorbed
per-record: `appeals_case_number` returns the empty identifier on a failed
fetch, and `scrape_supreme` then still produces its record tuple with an
empty appeals number; a detail-page fetch failure, by contrast, propagates
as an error and aborts the run. -/
theorem spec_claim_C4 (fetch : Fetch) (url : String) :
    (fetch url = none → scrape_supreme fetch url = Except.error ()) ∧
    (fetch url = none → appeals_case_number fetch url = "") ∧
    (∀ html, fetch url = some html →
      first_appeals_link html ≠ "" →
      isLandsrettur (first_appeals_link html) = true →
      fetch (first_appeals_link html) = none →
      scrape_supreme fetch url =
        Except.ok (firstSupremeNo html, url, "", first_appeals_link html)) := by
  refine ⟨?_, ?_, ?_⟩
  · intro h
    unfold scrape_supreme
    rw [h]
  · intro h
    unfold appeals_case_number
    rw [h]
  · intro html hfetch hlink hdom hcross
    have hcr : appeals_case_number fetch (first_appeals_link html) = "" := by
      unfold appeals_case_number
      rw [hcross]
    have hb : (first_appeals_link html == "") = false :=
      beq_eq_false_iff_ne.mpr hlink
    simp [scrape_supreme, hfetch, hb, hdom, hcr]

/-- A concrete appeals-court page URL, used as the page content of a detail
page whose only text is its cross-reference link. -/
def wHtml : String :=
  "https://landsrettur.is/domar-og-urskurdir/domur-urskurdur/a"

/-- A concrete detail-page URL. -/
def wDetail : String := "https://www.haestirettur.is/domar/_domur/w"

/-- A fetch oracle for which the detail page succeeds and every other
request — in particular the cross-reference page — fails. -/
def wfetch : Fetch := fun u => if u == wDetail then some wHtml else none

/-- C4 witness: with the concrete oracle, the cross-reference fetch failure
is absorbed into an empty appeals identifier, and a failing fetch yields an
empty identifier from the resolver. -/
theorem spec_claim_C4_witness :
    scrape_supreme wfetch wDetail = Except.ok ("", wDetail, "", wHtml) ∧
    appeals_case_number (fun _ => none) wHtml = "" := by
  constructor
  · have h := (spec_claim_C4 wfetch wDetail).2.2 wHtml (by decide) (by decide)
      (by decide) (by decide)
    have e1 : firstSupremeNo wHtml = "" := by decide
    have e2 : first_appeals_link wHtml = wHtml := by decide
    rw [e1, e2] at h
    exact h
  · exact (spec_claim_C4 (fun _ => none) wHtml).2.1 rfl

/-- C9 counterexample: the verdicts source does not exclude its prefix root:
an href equal to "/domar/_domur/" itself is kept (line 74 tests only
`startswith`), while the decisions source does exclude its root (line 89). -/
theorem spec_claim_C9_counterexample :
    resolveHref "/domar/_domur/" ∈ get_verdict_links ["/domar/_domur/"] ∧
    get_decision_links ["/akvardanir/"] = [] := by
  constructor
  · decide
  · decide

theorem map_filter_ext {p : String → Bool} {l l' : List String}
    (h : ∀ u, u ∈ l ↔ u ∈ l') :
    ∀ u, u ∈ (l.filter p).map resolveHref ↔ u ∈ (l'.filter p).map resolveHref := by
  intro u
  simp only [List.mem_map, List.mem_filter]
  constructor
  · rintro ⟨x, ⟨hx, hp⟩, rfl⟩
    exact ⟨x, ⟨(h x).mp hx, hp⟩, rfl⟩
  · rintro ⟨x, ⟨hx, hp⟩, rfl⟩
    exact ⟨x, ⟨(h x).mpr hx, hp⟩, rfl⟩

/-- C9 (amended): both link-discovery functions return the lexicographically
sorted list of distinct resolved URLs of the hrefs matching their path rule,
and are deterministic functions of the href set (duplicates and order of the
input are irrelevant); the decisions source excludes its prefix root, but the
verdicts source keeps any href matching its prefix, including the prefix root
itself. -/
theorem spec_claim_C9 (hrefs : List String) :
    List.Sorted (· ≤ ·) (get_verdict_links hrefs) ∧
    (get_verdict_links hrefs).Nodup ∧
    (∀ u, u ∈ get_verdict_links hrefs ↔
      ∃ h ∈ hrefs, strStartsWith h "/domar/_domur/" = true ∧ u = resolveHref h) ∧
    List.Sorted (· ≤ ·) (get_decision_links hrefs) ∧
    (get_decision_links hrefs).Nodup ∧
    (∀ u, u ∈ get_decision_links hrefs ↔
      ∃ h ∈ hrefs, strStartsWith h "/akvardanir/" = true ∧ h ≠ "/akvardanir/" ∧
        u = resolveHref h) ∧
    (∀ hrefs', (∀ h, h ∈ hrefs ↔ h ∈ hrefs') →
      get_verdict_links hrefs = get_verdict_links hrefs' ∧
      get_decision_links hrefs = get_decision_links hrefs') := by
  refine ⟨sortStrings_sorted _, ?_, fun u => mem_get_verdict_links,
    sortStrings_sorted _, ?_, fun u => mem_get_decision_links, ?_⟩
  · exact ((sortStrings_perm _).nodup_iff).mpr (nodup_dedupeBy_id _)
  · exact ((sortStrings_perm _).nodup_iff).mpr (nodup_dedupeBy_id _)
  · intro hrefs' h
    exact ⟨sortStrings_dedupe_ext (map_filter_ext h),
      sortStrings_dedupe_ext (map_filter_ext h)⟩

/-- C9 witness: set semantics and determinism at concrete href lists —
duplicated and re-ordered hrefs give identical output — plus a concrete
membership through the characterization. -/
theorem spec_claim_C9_witness :
    (get_verdict_links ["/x", "/domar/_domur/b", "/domar/_domur/b"] =
        get_verdict_links ["/domar/_domur/b", "/x"] ∧
      get_decision_links ["/x", "/domar/_domur/b", "/domar/_domur/b"] =
        get_decision_links ["/domar/_domur/b", "/x"]) ∧
    resolveHref "/domar/_domur/b" ∈ get_verdict_links ["/domar/_domur/b", "/x"] := by
  constructor
  · apply ((spec_claim_C9 ["/x", "/domar/_domur/b", "/domar/_domur/b"]).2.2.2.2.2.2
      ["/domar/_domur/b", "/x"])
    intro u
    simp only [List.mem_cons, List.not_mem_nil, or_false]
    tauto
  · apply ((spec_claim_C9 ["/domar/_domur/b", "/x"]).2.2.1 (resolveHref "/domar/_domur/b")).mpr
    exact ⟨"/domar/_domur/b", by decide, by decide, rfl⟩

end Nyir
